import Mathlib

set_option maxHeartbeats 1000000

/-!
Verification of the tsconfig alias extraction of `packages/dev-ts/src/tsconfig.js`.

The development shallowly embeds the two functions of that module:

* `readConfigFile` — walks an `extends` chain of tsconfig files, merging
  `compilerOptions.paths` (child overrides parent) and resolving
  `compilerOptions.baseUrl` (child wins, else inherited).
* `extractAliases` — compiles the merged path mappings into alias rules,
  validating wildcard placement.

The file system and the JSON5 parser are external collaborators and are
modelled as a map from absolute paths to parse outcomes.  Recursion in the
source is unbounded; the embedding uses an explicit recursion budget (fuel),
with `none` denoting a computation that did not finish within the budget.
-/

namespace TsConfig

/-- Splits a character list on separator characters, keeping empty segments.
This mirrors the JavaScript `String.prototype.split` with a character-class
regular expression: adjacent separators and separators at either end produce
empty segments, and the empty input yields one empty segment. -/
def splitBy (isSep : Char → Bool) : List Char → List (List Char)
  | [] => [[]]
  | c :: cs =>
    if isSep c then [] :: splitBy isSep cs
    else
      match splitBy isSep cs with
      | [] => [[c]]
      | s :: ss => (c :: s) :: ss

/-- Splits a string on forward and backward slashes, as the source does with
`key.split(/[\\/]/)`. -/
def splitSlashes (s : String) : List String :=
  (splitBy (fun c => c == '/' || c == '\\') s.toList).map String.mk

/-- Whether a string starts with the character `.`, as in the source check
`parentConfig.startsWith('.')`. -/
def startsWithDot (s : String) : Bool :=
  match s.toList with
  | c :: _ => c == '.'
  | [] => false

/-- Normalises a segment list of a path: drops empty and `.` segments and
resolves `..` against the preceding segment, as the Node `path` module does
when joining. -/
def normSegs (isAbs : Bool) (segs : List String) : List String :=
  (segs.foldl (fun acc s =>
    if s = "" ∨ s = "." then acc
    else if s = ".." then
      match acc with
      | [] => if isAbs then [] else [".."]
      | a :: rest => if a = ".." then s :: a :: rest else rest
    else s :: acc) []).reverse

/-- Model of the Node `path.join`: concatenates the given parts with `/` and
normalises the result.  Paths are an external collaborator of the source; the
model keeps the behaviour the source relies on (segment concatenation and
collapsing of `.` and empty segments). -/
def pathJoin (parts : List String) : String :=
  match parts.filter (fun p => p ≠ "") with
  | [] => "."
  | ps =>
    let isAbsB : Bool := decide ((ps.headD "").toList.headD ' ' = '/')
    let segs := (ps.map (fun p => (splitBy (fun c => c == '/') p.toList).map String.mk)).flatten
    let norm := normSegs isAbsB segs
    if norm = [] then (if isAbsB then "/" else ".")
    else (if isAbsB then "/" else "") ++ String.intercalate "/" norm

/-- Model of the Node `path.dirname`: the path without its final segment. -/
def dirname (p : String) : String :=
  let segs := (splitBy (fun c => c == '/') p.toList).map String.mk
  match segs.dropLast with
  | [] => "."
  | [""] => "/"
  | ss => String.intercalate "/" ss

/-- Model of the Node `pathToFileURL`; URLs are represented as strings. -/
def pathToFileURL (p : String) : String :=
  "file://" ++ p

/-- Modelled from the spec: `CWD_PATH` is an external constant of `common.js`
(not under `src/`), the working directory of the process. -/
def CWD_PATH : String := "/cwd"

/-- Modelled from the spec: `MOD_PATH` is an external constant of `common.js`
(not under `src/`), the fixed package root against which non-relative
`extends` references are resolved. -/
def MOD_PATH : String := "/mod"

/-- Modelled from the spec: `CWD_URL` is an external constant of `common.js`
(not under `src/`), the file URL of the working directory, used as the
default base reference. -/
def CWD_URL : String := pathToFileURL CWD_PATH

/-- The relevant fields of one parsed tsconfig file: `compilerOptions.baseUrl`,
`compilerOptions.paths` (absent modelled as the empty list) and the top-level
`extends` reference. -/
structure JsonConfig where
  baseUrl : Option String
  paths : List (String × List String)
  extendsRef : Option String
  deriving Repr, DecidableEq

/-- What the file system and the JSON5 parser yield for one absolute path:
the file is missing, or it exists but fails to parse (with the parser message),
or it parses to a configuration. -/
inductive FileEntry where
  | missing : FileEntry
  | invalid : String → FileEntry
  | valid : JsonConfig → FileEntry
  deriving Repr, DecidableEq

/-- A file-system state: the parse outcome at every absolute path. -/
def FS : Type := String → FileEntry

/-- Console output of a run: `console.warn` and `console.error` lines. -/
inductive LogMsg where
  | warn : String → LogMsg
  | error : String → LogMsg
  deriving Repr, DecidableEq

/-- The result of walking one extends chain (the `PartialConfig` of the
source): the merged path mappings and the resolved base URL, when any file of
the chain defined one. -/
structure MergedConfig where
  paths : List (String × List String)
  url : Option String
  deriving Repr, DecidableEq

/-- A compiled alias rule: the split filter segments, the wildcard flag, the
first target candidate (`none` when the candidate list was empty, where the
source carries `undefined`) and the base URL. -/
structure Alias where
  filter : List String
  isWildcard : Bool
  path : Option String
  url : String
  deriving Repr, DecidableEq

/-- First value bound to a key in an association list, as a JavaScript object
lookup on the objects built here. -/
def lookupKey (ps : List (String × List String)) (k : String) : Option (List String) :=
  match ps.find? (fun e => e.1 = k) with
  | some e => some e.2
  | none => none

/-- The JavaScript object spread `{...ext, ...own}` on path mappings: keys of
`ext` keep their position but take the value of `own` on collision, and keys
only in `own` follow in their own order. -/
def spreadMerge (ext own : List (String × List String)) : List (String × List String) :=
  (ext.map (fun e =>
    match lookupKey own e.1 with
    | some v => (e.1, v)
    | none => e)) ++ own.filter (fun e => (lookupKey ext e.1).isNone)

/-- The warning printed for a missing configuration file; the requesting file
is named when the call resolves an `extends` reference with a truthy origin. -/
def missingMsg (configFile : String) (fromFile : Option String) : String :=
  "No " ++ configFile ++
    (match fromFile with
     | some f => if f = "" then "" else " (extended from " ++ f ++ ")"
     | none => "") ++ " found, assuming defaults"

/-- The diagnostic printed when parsing a configuration file fails. -/
def parseErrMsg (configFile msg : String) : String :=
  "FATAL: Error parsing " ++ configFile ++ ":: " ++ msg

/-- The resolution of `compilerOptions.baseUrl` against the directory of the
configuration file, skipped for a falsy (empty or absent) value. -/
def resolveBaseUrl (configFile : String) (baseUrl : Option String) : Option String :=
  match baseUrl with
  | some b => if b = "" then none else some (pathToFileURL (pathJoin [dirname configFile, b ++ "/"]))
  | none => none

/-- The location of the configuration file named by an `extends` reference
`r` from a resolution started at `currentPath`: the directory obtained by
joining the reference root (the current path for a relative reference, the
package root otherwise) with all but the last slash-separated segment of `r`,
and the last segment as the file name. -/
def extTarget (currentPath r : String) : String × String :=
  (pathJoin ((if startsWithDot r then currentPath else MOD_PATH) :: (splitSlashes r).dropLast),
   (splitSlashes r).getLastD "")

/-- The `readConfigFile` of the source, with an explicit recursion budget:
computes the configuration file path, warns and returns an empty result when
the file is missing, re-raises a parse failure after logging a diagnostic,
resolves the own base URL, and on a truthy `extends` reference recursively
resolves the parent and merges (own paths win, own URL wins).  `none` means
the budget was exhausted before the chain ended. -/
def readConfigFile (fs : FS) :
    Nat → String → String → Option String → Option (List LogMsg × Except String MergedConfig)
  | 0, _, _, _ => none
  | fuel+1, currentPath, tsconfig, fromFile =>
    let configFile := pathJoin [currentPath, tsconfig]
    match fs configFile with
    | .missing =>
      some ([.warn (missingMsg configFile fromFile)], .ok ⟨[], none⟩)
    | .invalid msg =>
      some ([.error (parseErrMsg configFile msg)], .error msg)
    | .valid cfg =>
      let url := resolveBaseUrl configFile cfg.baseUrl
      match cfg.extendsRef with
      | some parentConfig =>
        if parentConfig = "" then some ([], .ok ⟨cfg.paths, url⟩)
        else
          match readConfigFile fs fuel (extTarget currentPath parentConfig).1
              (extTarget currentPath parentConfig).2 (some configFile) with
          | none => none
          | some (logs, .error msg) =>
            some (logs ++ [.error (parseErrMsg configFile msg)], .error msg)
          | some (logs, .ok extConfig) =>
            some (logs, .ok ⟨spreadMerge extConfig.paths cfg.paths, url.or extConfig.url⟩)
      | none => some ([], .ok ⟨cfg.paths, url⟩)

/-- Whether an `Except` result is a success. -/
def exceptOk : Except String α → Bool
  | .ok _ => true
  | .error _ => false

/-- The string the source interpolates for the first target candidate: the
candidate itself, or `undefined` when the candidate list is empty. -/
def pathStr : Option String → String
  | some s => s
  | none => "undefined"

/-- The per-entry body of the `map` in `extractAliases`: splits the key on
slashes, detects a trailing wildcard, rejects any other wildcard placement
for a truthy key, and otherwise builds the alias rule (dropping the trailing
wildcard segment from the filter). -/
def toAlias (url : String) (entry : String × List String) : Except String Alias :=
  let key := entry.1
  let path := entry.2.head?
  let filter := splitSlashes key
  let isWildcard : Bool := filter.getLastD "" == "*"
  if ((filter.filter (fun f => f == "*")).length ≠ (if isWildcard then 1 else 0)) ∧ key ≠ "" then
    .error ("FATAL: Wildcards in tsconfig.json path entries are only supported in the last position. Invalid "
      ++ key ++ ": " ++ pathStr path ++ " mapping")
  else
    .ok ⟨if isWildcard then filter.dropLast else filter, isWildcard, path, url⟩

/-- The `extractAliases` of the source: resolves the chain from the working
directory and the default file name, defaults the base URL to the working
directory URL, and compiles every path mapping entry in order, stopping at
the first invalid key. -/
def extractAliases (fs : FS) (fuel : Nat) : Option (List LogMsg × Except String (List Alias)) :=
  match readConfigFile fs fuel CWD_PATH "tsconfig.json" none with
  | none => none
  | some (logs, .error msg) => some (logs, .error msg)
  | some (logs, .ok cfg) =>
    some (logs, cfg.paths.mapM (toAlias (cfg.url.getD CWD_URL)))

/-- The error condition of claim C1, stated as the claim words it: the key,
split on slashes, contains more than one segment equal to the wildcard
marker, or contains a wildcard segment in a position other than the last. -/
def wildcardBad (key : String) : Prop :=
  1 < ((splitSlashes key).filter (fun f => f == "*")).length ∨
    "*" ∈ (splitSlashes key).dropLast

instance (key : String) : Decidable (wildcardBad key) := by
  unfold wildcardBad; infer_instance

/-- A file-system state holding exactly one configuration file, at the
default location, with a single path mapping entry. -/
def singleFS (key : String) (targets : List String) : FS :=
  fun p =>
    if p = "/cwd/tsconfig.json" then .valid ⟨none, [(key, targets)], none⟩ else .missing

theorem star_filter_pos (l : List String) :
    0 < (l.filter (fun f => f == "*")).length ↔ "*" ∈ l := by
  induction l with
  | nil => simp
  | cons a t ih =>
    by_cases h : a = "*"
    · subst h; simp
    · have hb : (a == "*") = false := by simpa using h
      have hne : ¬ "*" = a := fun hx => h hx.symm
      simp only [List.filter_cons, hb, Bool.false_eq_true, if_false, ih, List.mem_cons]
      simp [hne]

theorem star_cond_iff (l : List String) :
    ((l.filter (fun f => f == "*")).length ≠ (if (l.getLastD "" == "*") then 1 else 0)) ↔
      (1 < (l.filter (fun f => f == "*")).length ∨ "*" ∈ l.dropLast) := by
  rcases List.eq_nil_or_concat l with rfl | ⟨t, a, rfl⟩
  · simp
  · rw [List.concat_eq_append, List.getLastD_concat, List.dropLast_concat, List.filter_append]
    by_cases h : a = "*"
    · subst h
      have h1 := star_filter_pos t
      simp only [List.filter_cons, List.filter_nil, beq_self_eq_true, if_true,
        List.length_append, List.length_cons, List.length_nil]
      constructor
      · intro hne
        exact Or.inr (h1.mp (by omega))
      · rintro (hlt | hmem) <;> [omega; skip]
        have := h1.mpr hmem
        omega
    · have hb : (a == "*") = false := by simpa using h
      have h1 := star_filter_pos t
      simp only [hb, List.filter_cons, if_false, List.filter_nil, List.append_nil,
        Bool.false_eq_true]
      constructor
      · intro hne
        exact Or.inr (h1.mp (by omega))
      · rintro (hlt | hmem)
        · omega
        · have := h1.mpr hmem
          omega

theorem toAlias_ok_iff (url key : String) (targets : List String) :
    exceptOk (toAlias url (key, targets)) = false ↔ wildcardBad key := by
  simp only [toAlias]
  by_cases hcond : ((splitSlashes key).filter (fun f => f == "*")).length ≠
      (if ((splitSlashes key).getLastD "" == "*") = true then 1 else 0) ∧ key ≠ ""
  · rw [if_pos hcond]
    simp only [exceptOk, eq_self_iff_true, true_iff]
    exact (star_cond_iff (splitSlashes key)).mp hcond.1
  · rw [if_neg hcond]
    simp only [exceptOk, Bool.true_eq_false, false_iff]
    intro hb
    rcases not_and_or.mp hcond with hc | hk
    · exact hc ((star_cond_iff (splitSlashes key)).mpr hb)
    · have hk0 : key = "" := not_not.mp hk
      subst hk0
      exact absurd hb (by decide)

theorem mapM_singleton {α β : Type} (f : α → Except String β) (x : α) :
    List.mapM f [x] = Except.map (fun b => [b]) (f x) := by
  rw [List.mapM_cons, List.mapM_nil]
  cases f x with
  | error e => rfl
  | ok b => rfl

theorem exceptOk_map {α β : Type} (g : α → β) (e : Except String α) :
    exceptOk (Except.map g e) = exceptOk e := by
  cases e with
  | error m => rfl
  | ok a => rfl

theorem extractAliases_singleFS (key : String) (targets : List String) :
    extractAliases (singleFS key targets) 1 =
      some ([], List.mapM (toAlias CWD_URL) [(key, targets)]) := by
  have h1 : readConfigFile (singleFS key targets) 1 CWD_PATH "tsconfig.json" none =
      some ([], .ok ⟨[(key, targets)], none⟩) := rfl
  unfold extractAliases
  rw [h1]
  rfl

/-- Claim C1: for every path-mapping key, compilation fails with the fatal
invalid-alias-key error exactly when the key, split on forward and backward
slashes, contains more than one segment equal to the wildcard marker, or
contains a wildcard segment in a position other than the last; otherwise the
key compiles without error.  Stated for the per-entry compiler at any key
and, through `extractAliases`, for a run on a file system holding that one
entry. -/
theorem c1_invalid_alias_key_iff (url key : String) (targets : List String) :
    (exceptOk (toAlias url (key, targets)) = false ↔ wildcardBad key) ∧
    ((extractAliases (singleFS key targets) 1).map (fun r => exceptOk r.2) =
      some false ↔ wildcardBad key) := by
  refine ⟨toAlias_ok_iff url key targets, ?_⟩
  rw [extractAliases_singleFS, mapM_singleton]
  rw [show ((some (([] : List LogMsg), Except.map (fun b => [b]) (toAlias CWD_URL (key, targets)))).map
        (fun r => exceptOk r.2)) = some (exceptOk (toAlias CWD_URL (key, targets))) by
      rw [Option.map_some']
      rw [exceptOk_map]]
  rw [Option.some_inj]
  exact toAlias_ok_iff CWD_URL key targets

/-- Claim C7: a path-mapping entry with more than one candidate target
compiles exactly as the entry with only its first candidate does, and the
produced rule carries the first candidate as its target. -/
theorem c7_first_target_only (url key t1 : String) (rest : List String) :
    toAlias url (key, t1 :: rest) = toAlias url (key, [t1]) ∧
    (∀ a : Alias, toAlias url (key, t1 :: rest) = .ok a → a.path = some t1) := by
  constructor
  · rfl
  · intro a h
    simp only [toAlias] at h
    by_cases hcond : ((splitSlashes key).filter (fun f => f == "*")).length ≠
        (if ((splitSlashes key).getLastD "" == "*") = true then 1 else 0) ∧ key ≠ ""
    · rw [if_pos hcond] at h
      cases h
    · rw [if_neg hcond] at h
      cases h
      rfl

/-- Witness for claim C7 at a concrete entry with two candidates. -/
theorem c7_witness :
    (Alias.mk ["k"] false (some "a") "u").path = some "a" :=
  (c7_first_target_only "u" "k" "a" ["b"]).2 ⟨["k"], false, some "a", "u"⟩ (by rfl)

/-- Claim C8: the key `@app/*` with first target `./src/*` compiles to the
rule with filter `[@app]`, wildcard flag set and target `./src/*`; in
general a rule filter is the segment list of the key with the trailing
wildcard removed when the last segment is the wildcard marker, and the full
segment list otherwise. -/
theorem c8_wildcard_rule_shape :
    (extractAliases (singleFS "@app/*" ["./src/*"]) 1 =
      some ([], .ok [⟨["@app"], true, some "./src/*", CWD_URL⟩])) ∧
    (∀ (url key : String) (targets : List String) (a : Alias),
      toAlias url (key, targets) = .ok a →
      a.filter = (if ((splitSlashes key).getLastD "" == "*") = true then
          (splitSlashes key).dropLast else splitSlashes key) ∧
      a.isWildcard = ((splitSlashes key).getLastD "" == "*")) := by
  constructor
  · rfl
  · intro url key targets a h
    simp only [toAlias] at h
    by_cases hcond : ((splitSlashes key).filter (fun f => f == "*")).length ≠
        (if ((splitSlashes key).getLastD "" == "*") = true then 1 else 0) ∧ key ≠ ""
    · rw [if_pos hcond] at h
      cases h
    · rw [if_neg hcond] at h
      cases h
      constructor <;> rfl

/-- Witness for claim C8 at the concrete key of the claim. -/
theorem c8_witness :
    (Alias.mk ["@app"] true (some "./src/*") "u").filter =
      (if ((splitSlashes "@app/*").getLastD "" == "*") = true then
        (splitSlashes "@app/*").dropLast else splitSlashes "@app/*") ∧
    (Alias.mk ["@app"] true (some "./src/*") "u").isWildcard =
      ((splitSlashes "@app/*").getLastD "" == "*") :=
  c8_wildcard_rule_shape.2 "u" "@app/*" ["./src/*"] ⟨["@app"], true, some "./src/*", "u"⟩ (by rfl)

/-- Claim C10: a successfully compiled alias rule never carries the wildcard
marker among its filter segments: the trailing wildcard of a wildcard key is
stripped, and any other wildcard placement fails compilation instead of
producing a rule. -/
theorem c10_filter_has_no_wildcard (url key : String) (targets : List String) (a : Alias)
    (h : toAlias url (key, targets) = .ok a) : "*" ∉ a.filter := by
  simp only [toAlias] at h
  by_cases hcond : ((splitSlashes key).filter (fun f => f == "*")).length ≠
      (if ((splitSlashes key).getLastD "" == "*") = true then 1 else 0) ∧ key ≠ ""
  · rw [if_pos hcond] at h
    cases h
  · rw [if_neg hcond] at h
    cases h
    rcases not_and_or.mp hcond with hc | hk
    · have hgood := not_or.mp ((star_cond_iff (splitSlashes key)).not.mp hc)
      rcases List.eq_nil_or_concat (splitSlashes key) with hnil | ⟨t, b, hcat⟩
      · simp [hnil]
      · rw [List.concat_eq_append] at hcat
        rw [hcat, List.getLastD_concat, List.dropLast_concat]
        rw [hcat, List.dropLast_concat] at hgood
        by_cases hb : b = "*"
        · subst hb
          simp only [beq_self_eq_true, if_true]
          exact hgood.2
        · have hbeq : (b == "*") = false := by simpa using hb
          simp only [hbeq, Bool.false_eq_true, if_false, List.mem_append, List.mem_singleton]
          rintro (hmem | hmem)
          · exact hgood.2 hmem
          · exact hb hmem.symm
    · have hk0 : key = "" := not_not.mp hk
      subst hk0
      show "*" ∉ (if ((splitSlashes "").getLastD "" == "*") = true then
        (splitSlashes "").dropLast else splitSlashes "")
      decide

/-- Witness for claim C10 at a concrete wildcard key. -/
theorem c10_witness : "*" ∉ (Alias.mk ["@app"] true (some "./src/*") "u").filter :=
  c10_filter_has_no_wildcard "u" "@app/*" ["./src/*"] ⟨["@app"], true, some "./src/*", "u"⟩ (by rfl)

/-- A file-system state with no file at any path. -/
def emptyFS : FS := fun _ => .missing

/-- A file-system state where every file exists but fails to parse. -/
def badFS : FS := fun _ => .invalid "boom"

/-- A concrete two-file chain used by witnesses: the root configuration at the
default location extends `./base.json` and overrides the key `k`; the base
configuration defines a base URL and the keys `k` and `onlyB`. -/
def chainFS : FS := fun p =>
  if p = "/cwd/tsconfig.json" then
    .valid ⟨none, [("k", ["a"]), ("onlyA", ["x"])], some "./base.json"⟩
  else if p = "/cwd/base.json" then
    .valid ⟨some "./base", [("k", ["b"]), ("onlyB", ["y"])], none⟩
  else .missing

/-- Claim C4: when the computed configuration file path does not exist,
resolution returns the empty mapping with no base URL and does not fail; its
only output is one warning that names the missing file and, when the call is
an extends-resolution hop, the requesting file. -/
theorem c4_missing_file_defaults (fuel : Nat) (fs : FS) (dir file : String)
    (fromF : Option String) (h : fs (pathJoin [dir, file]) = .missing) :
    readConfigFile fs (fuel + 1) dir file fromF =
      some ([.warn (missingMsg (pathJoin [dir, file]) fromF)], .ok ⟨[], none⟩) := by
  simp only [readConfigFile, h]

/-- Witness for claim C4 on the empty file system, with a requesting file. -/
theorem c4_witness :
    readConfigFile emptyFS 1 "/cwd" "tsconfig.json" (some "/x/y.json") =
      some ([.warn (missingMsg (pathJoin ["/cwd", "tsconfig.json"]) (some "/x/y.json"))],
        .ok ⟨[], none⟩) :=
  c4_missing_file_defaults 0 emptyFS "/cwd" "tsconfig.json" (some "/x/y.json") (by rfl)

/-- Claim C5: a configuration file that exists but fails to parse makes the
resolution log a diagnostic naming that file and re-raise the parse failure
as a fatal error; and a failure arising while resolving an extends reference
is not recovered anywhere in the chain: the extending file adds its own
diagnostic and re-raises the same failure to its caller. -/
theorem c5_parse_failure_fatal :
    (∀ (fuel : Nat) (fs : FS) (dir file : String) (fromF : Option String) (msg : String),
      fs (pathJoin [dir, file]) = .invalid msg →
      readConfigFile fs (fuel + 1) dir file fromF =
        some ([.error (parseErrMsg (pathJoin [dir, file]) msg)], .error msg)) ∧
    (∀ (fuel : Nat) (fs : FS) (dir file : String) (fromF : Option String)
        (cfg : JsonConfig) (r : String) (logs : List LogMsg) (msg : String),
      fs (pathJoin [dir, file]) = .valid cfg →
      cfg.extendsRef = some r → r ≠ "" →
      readConfigFile fs fuel (extTarget dir r).1 (extTarget dir r).2
          (some (pathJoin [dir, file])) = some (logs, .error msg) →
      readConfigFile fs (fuel + 1) dir file fromF =
        some (logs ++ [.error (parseErrMsg (pathJoin [dir, file]) msg)], .error msg)) := by
  constructor
  · intro fuel fs dir file fromF msg h
    simp only [readConfigFile, h]
  · intro fuel fs dir file fromF cfg r logs msg hv he hne hrec
    simp only [readConfigFile, hv, he, hne, if_false, hrec]

/-- Witness for claim C5 on a file system whose files all fail to parse. -/
theorem c5_witness :
    readConfigFile badFS 1 "/cwd" "tsconfig.json" none =
      some ([.error (parseErrMsg (pathJoin ["/cwd", "tsconfig.json"]) "boom")], .error "boom") :=
  c5_parse_failure_fatal.1 0 badFS "/cwd" "tsconfig.json" none "boom" (by rfl)

/-- Claim C6: for an extends reference present in a configuration file, the
parent file is looked up under the starting directory of the current
resolution when the reference starts with a dot and under the fixed package
root otherwise; the reference is split on slashes into directory segments
plus a trailing file name, and resolution recurses on those with the current
file as the diagnostic origin, after which the results are merged. -/
theorem c6_extends_resolution (fuel : Nat) (fs : FS) (dir file : String)
    (fromF : Option String) (cfg : JsonConfig) (r : String)
    (hv : fs (pathJoin [dir, file]) = .valid cfg)
    (he : cfg.extendsRef = some r) (hne : r ≠ "") :
    readConfigFile fs (fuel + 1) dir file fromF =
      (match readConfigFile fs fuel
          (pathJoin ((if startsWithDot r then dir else MOD_PATH) :: (splitSlashes r).dropLast))
          ((splitSlashes r).getLastD "")
          (some (pathJoin [dir, file])) with
       | none => none
       | some (logs, .error msg) =>
         some (logs ++ [.error (parseErrMsg (pathJoin [dir, file]) msg)], .error msg)
       | some (logs, .ok extConfig) =>
         some (logs, .ok ⟨spreadMerge extConfig.paths cfg.paths,
           (resolveBaseUrl (pathJoin [dir, file]) cfg.baseUrl).or extConfig.url⟩)) := by
  simp only [readConfigFile, hv, he, hne, if_false, extTarget]

/-- Witness for claim C6 on the concrete two-file chain, with a relative
extends reference. -/
theorem c6_witness :
    readConfigFile chainFS 2 "/cwd" "tsconfig.json" none =
      (match readConfigFile chainFS 1
          (pathJoin ((if startsWithDot "./base.json" then "/cwd" else MOD_PATH) ::
            (splitSlashes "./base.json").dropLast))
          ((splitSlashes "./base.json").getLastD "")
          (some (pathJoin ["/cwd", "tsconfig.json"])) with
       | none => none
       | some (logs, .error msg) =>
         some (logs ++ [.error (parseErrMsg (pathJoin ["/cwd", "tsconfig.json"]) msg)], .error msg)
       | some (logs, .ok extConfig) =>
         some (logs, .ok ⟨spreadMerge extConfig.paths
             [("k", ["a"]), ("onlyA", ["x"])],
           (resolveBaseUrl (pathJoin ["/cwd", "tsconfig.json"]) none).or extConfig.url⟩)) :=
  c6_extends_resolution 1 chainFS "/cwd" "tsconfig.json" none
    ⟨none, [("k", ["a"]), ("onlyA", ["x"])], some "./base.json"⟩ "./base.json"
    (by rfl) (by rfl) (by decide)

theorem lookupKey_nil (k : String) : lookupKey [] k = none := rfl

theorem lookupKey_cons (e : String × List String) (t : List (String × List String)) (k : String) :
    lookupKey (e :: t) k = if e.1 = k then some e.2 else lookupKey t k := by
  by_cases h : e.1 = k
  · simp [lookupKey, List.find?_cons, h]
  · simp [lookupKey, List.find?_cons, h]

theorem lookupKey_append (l1 l2 : List (String × List String)) (k : String) :
    lookupKey (l1 ++ l2) k = (lookupKey l1 k).or (lookupKey l2 k) := by
  induction l1 with
  | nil => simp [lookupKey_nil, Option.or]
  | cons e t ih =>
    rw [List.cons_append, lookupKey_cons, lookupKey_cons]
    by_cases h : e.1 = k
    · simp [h]
    · simp [h, ih]

theorem lookupKey_subst (own ext : List (String × List String)) (k : String) :
    lookupKey (ext.map (fun e =>
        match lookupKey own e.1 with
        | some v => (e.1, v)
        | none => e)) k =
      match lookupKey ext k with
      | some v => some ((lookupKey own k).getD v)
      | none => none := by
  induction ext with
  | nil => rfl
  | cons e t ih =>
    rw [List.map_cons, lookupKey_cons, lookupKey_cons]
    by_cases h : e.1 = k
    · subst h
      cases ho : lookupKey own e.1 with
      | none => simp [ho]
      | some v => simp [ho]
    · have h1 : (match lookupKey own e.1 with
          | some v => (e.1, v)
          | none => e).1 = e.1 := by
        cases lookupKey own e.1 <;> rfl
      rw [h1, if_neg h, if_neg h, ih]

theorem lookupKey_filterNot (own ext : List (String × List String)) (k : String) :
    lookupKey (own.filter (fun e => (lookupKey ext e.1).isNone)) k =
      if (lookupKey ext k).isSome then none else lookupKey own k := by
  induction own with
  | nil => simp [lookupKey_nil]
  | cons e t ih =>
    rw [List.filter_cons]
    by_cases hkeep : (lookupKey ext e.1).isNone
    · rw [if_pos (by simpa using hkeep), lookupKey_cons, lookupKey_cons]
      by_cases h : e.1 = k
      · subst h
        rw [if_pos rfl, if_pos rfl]
        rw [if_neg (by simp [Option.isNone_iff_eq_none.mp hkeep])]
      · rw [if_neg h, if_neg h, ih]
    · have hsome : (lookupKey ext e.1).isSome = true := by
        cases hx : lookupKey ext e.1 with
        | none => exact absurd (by simp [hx]) hkeep
        | some v => rfl
      rw [if_neg (by simpa using hkeep), ih, lookupKey_cons]
      by_cases h : e.1 = k
      · subst h
        rw [hsome]
        simp
      · rw [if_neg h]

theorem lookupKey_spread (ext own : List (String × List String)) (k : String) :
    lookupKey (spreadMerge ext own) k = (lookupKey own k).or (lookupKey ext k) := by
  unfold spreadMerge
  rw [lookupKey_append, lookupKey_subst, lookupKey_filterNot]
  cases he : lookupKey ext k with
  | none =>
    simp [he]
  | some v =>
    cases ho : lookupKey own k with
    | none => simp [he, ho, Option.or]
    | some w => simp [he, ho, Option.or]

/-- Lookup of one key in the merged path mappings of a run result; `none`
when the run did not complete with a merged configuration. -/
def runPaths (r : Option (List LogMsg × Except String MergedConfig)) (k : String) :
    Option (List String) :=
  match r with
  | some (_, .ok m) => lookupKey m.paths k
  | _ => none

/-- Whether a run completed with a merged configuration. -/
def runOk (r : Option (List LogMsg × Except String MergedConfig)) : Bool :=
  match r with
  | some (_, .ok _) => true
  | _ => false

/-- Claim C2: in a two-level extends chain the run completes, a key present
in both files resolves to the child value and a key present only in the
parent keeps the parent value — summarised by the merged lookup being the
child lookup with the parent lookup as fallback, for every key. -/
theorem c2_child_overrides_parent (fuel : Nat) (fs : FS) (dir file : String)
    (cfg cfgB : JsonConfig) (r k : String)
    (hv : fs (pathJoin [dir, file]) = .valid cfg)
    (he : cfg.extendsRef = some r) (hne : r ≠ "")
    (hB : fs (pathJoin [(extTarget dir r).1, (extTarget dir r).2]) = .valid cfgB)
    (hBnone : cfgB.extendsRef = none) :
    runOk (readConfigFile fs (fuel + 1 + 1) dir file none) = true ∧
    runPaths (readConfigFile fs (fuel + 1 + 1) dir file none) k =
      (lookupKey cfg.paths k).or (lookupKey cfgB.paths k) := by
  have hrun : readConfigFile fs (fuel + 1 + 1) dir file none =
      some ([], .ok ⟨spreadMerge cfgB.paths cfg.paths,
        (resolveBaseUrl (pathJoin [dir, file]) cfg.baseUrl).or
          (resolveBaseUrl (pathJoin [(extTarget dir r).1, (extTarget dir r).2]) cfgB.baseUrl)⟩) := by
    simp only [readConfigFile, hv, he, hne, if_false, hB, hBnone]
  rw [hrun]
  exact ⟨rfl, lookupKey_spread cfgB.paths cfg.paths k⟩

/-- Witness for claim C2 on the concrete two-file chain, at the key defined
only in the parent configuration. -/
theorem c2_witness :
    runOk (readConfigFile chainFS 2 "/cwd" "tsconfig.json" none) = true ∧
    runPaths (readConfigFile chainFS 2 "/cwd" "tsconfig.json" none) "onlyB" =
      (lookupKey [("k", ["a"]), ("onlyA", ["x"])] "onlyB").or
        (lookupKey [("k", ["b"]), ("onlyB", ["y"])] "onlyB") :=
  c2_child_overrides_parent 0 chainFS "/cwd" "tsconfig.json"
    ⟨none, [("k", ["a"]), ("onlyA", ["x"])], some "./base.json"⟩
    ⟨some "./base", [("k", ["b"]), ("onlyB", ["y"])], none⟩
    "./base.json" "onlyB" (by rfl) (by rfl) (by decide) (by rfl) (by rfl)

/-- Specification-side definition for claim C3, following the words of the
spec: walking the chain from child to parent, the merged base URL is the
resolved base URL of the nearest configuration that defines one, and there
is none when no configuration of the chain defines one. -/
def specNearestUrl (fs : FS) : Nat → String → String → Option String
  | 0, _, _ => none
  | fuel+1, currentPath, tsconfig =>
    let configFile := pathJoin [currentPath, tsconfig]
    match fs configFile with
    | .valid cfg =>
      (resolveBaseUrl configFile cfg.baseUrl).or
        (match cfg.extendsRef with
         | some r =>
           if r = "" then none
           else specNearestUrl fs fuel (extTarget currentPath r).1 (extTarget currentPath r).2
         | none => none)
    | _ => none

/-- Claim C3: whenever resolution completes, the merged base URL is the
resolved base URL of the nearest configuration, walking from child to
parent, that defines one — the child base URL is never overridden by an
ancestor, an absent child base URL is inherited from the nearest ancestor
that has one, and the merged result has no base URL when none defines one. -/
theorem c3_nearest_base_url (fuel : Nat) (fs : FS) (dir file : String)
    (fromF : Option String) (logs : List LogMsg) (m : MergedConfig)
    (h : readConfigFile fs fuel dir file fromF = some (logs, .ok m)) :
    m.url = specNearestUrl fs fuel dir file := by
  induction fuel generalizing dir file fromF logs m with
  | zero => simp [readConfigFile] at h
  | succ n ih =>
    simp only [readConfigFile] at h
    cases hfe : fs (pathJoin [dir, file]) with
    | missing =>
      simp only [hfe, Option.some.injEq, Prod.mk.injEq, Except.ok.injEq] at h
      obtain ⟨h1, h2⟩ := h
      subst h2
      simp [specNearestUrl, hfe]
    | invalid msg =>
      simp only [hfe, Option.some.injEq, Prod.mk.injEq] at h
      exact absurd h.2 (by simp)
    | valid c =>
      simp only [hfe] at h
      cases hext : c.extendsRef with
      | none =>
        simp only [hext, Option.some.injEq, Prod.mk.injEq, Except.ok.injEq] at h
        obtain ⟨h1, h2⟩ := h
        subst h2
        simp [specNearestUrl, hfe, hext]
      | some r =>
        by_cases hr : r = ""
        · subst hr
          simp only [hext, if_true] at h
          simp only [Option.some.injEq, Prod.mk.injEq, Except.ok.injEq] at h
          obtain ⟨h1, h2⟩ := h
          subst h2
          simp [specNearestUrl, hfe, hext]
        · simp only [hext, if_neg hr] at h
          cases hrec : readConfigFile fs n (extTarget dir r).1 (extTarget dir r).2
              (some (pathJoin [dir, file])) with
          | none =>
            rw [hrec] at h
            exact absurd h (by simp)
          | some p =>
            obtain ⟨logs2, res2⟩ := p
            cases res2 with
            | error msg =>
              rw [hrec] at h
              simp only [Option.some.injEq, Prod.mk.injEq] at h
              exact absurd h.2 (by simp)
            | ok ext =>
              rw [hrec] at h
              simp only [Option.some.injEq, Prod.mk.injEq, Except.ok.injEq] at h
              obtain ⟨h1, h2⟩ := h
              subst h2
              have hx := ih (extTarget dir r).1 (extTarget dir r).2
                (some (pathJoin [dir, file])) logs2 ext hrec
              simp only [specNearestUrl, hfe, hext, if_neg hr]
              rw [hx]

/-- Witness for claim C3 on the concrete two-file chain, whose child defines
no base URL and whose parent does. -/
theorem c3_witness :
    (MergedConfig.mk [("k", ["a"]), ("onlyB", ["y"]), ("onlyA", ["x"])]
        (some "file:///cwd/base")).url = specNearestUrl chainFS 2 "/cwd" "tsconfig.json" :=
  c3_nearest_base_url 2 chainFS "/cwd" "tsconfig.json" none []
    ⟨[("k", ["a"]), ("onlyB", ["y"]), ("onlyA", ["x"])], some "file:///cwd/base"⟩ (by rfl)

/-- A configuration that extends itself through a relative reference. -/
def cycCfg : JsonConfig := ⟨none, [], some "./tsconfig.json"⟩

/-- A file-system state with a single configuration file, which extends
itself. -/
def cycFS : FS := fun p =>
  if p = "/cwd/tsconfig.json" then .valid cycCfg else .missing

/-- Resolution of the given start never completes and never reports an
error, whatever the recursion budget and the requesting file. -/
def divergesAt (fs : FS) (dir file : String) : Prop :=
  ∀ (fuel : Nat) (fromF : Option String), readConfigFile fs fuel dir file fromF = none

/-- Counterexample to claim C9: on a file system whose sole configuration
file extends itself, the extends step recurses with exactly the starting
arguments, and resolution neither completes nor aborts with an error for any
recursion budget — the chain walk makes no progress. -/
theorem c9_counterexample :
    extTarget "/cwd" "./tsconfig.json" = ("/cwd", "tsconfig.json") ∧
    divergesAt cycFS "/cwd" "tsconfig.json" := by
  constructor
  · rfl
  · intro fuel
    induction fuel with
    | zero => intro fromF; rfl
    | succ n ih =>
      intro fromF
      have hrec := ih (some "/cwd/tsconfig.json")
      calc readConfigFile cycFS (n+1) "/cwd" "tsconfig.json" fromF
          = (match readConfigFile cycFS n "/cwd" "tsconfig.json" (some "/cwd/tsconfig.json") with
             | none => none
             | some (logs, .error msg) =>
               some (logs ++ [.error (parseErrMsg "/cwd/tsconfig.json" msg)], .error msg)
             | some (logs, .ok ext) =>
               some (logs, .ok ⟨spreadMerge ext.paths [], ext.url⟩)) := rfl
        _ = none := by rw [hrec]

/-- The extends chain reached from a starting directory and file name is
finite: the file is missing, or it is unparsable, or it carries no truthy
extends reference, or its extends reference leads to a start whose own chain
is finite.  This is the no-cycle condition of the amended claim C9. -/
inductive ChainTerm (fs : FS) : String → String → Prop where
  | missing (dir file : String) :
      fs (pathJoin [dir, file]) = .missing → ChainTerm fs dir file
  | invalid (dir file msg : String) :
      fs (pathJoin [dir, file]) = .invalid msg → ChainTerm fs dir file
  | noext (dir file : String) (cfg : JsonConfig) :
      fs (pathJoin [dir, file]) = .valid cfg →
      (cfg.extendsRef = none ∨ cfg.extendsRef = some "") → ChainTerm fs dir file
  | ext (dir file : String) (cfg : JsonConfig) (r : String) :
      fs (pathJoin [dir, file]) = .valid cfg → cfg.extendsRef = some r → r ≠ "" →
      ChainTerm fs (extTarget dir r).1 (extTarget dir r).2 → ChainTerm fs dir file

/-- Amended claim C9: on every file-system state whose extends chain from
the start is finite (in particular acyclic), resolution makes progress: with
a sufficient recursion budget it either completes or aborts with the fatal
parse error, for any requesting file. -/
theorem c9_amended_terminates (fs : FS) (dir file : String)
    (h : ChainTerm fs dir file) :
    ∃ fuel : Nat, ∀ fromF : Option String,
      (readConfigFile fs fuel dir file fromF).isSome = true := by
  induction h with
  | missing dir file hm =>
    exact ⟨1, fun fromF => by simp only [readConfigFile, hm]; rfl⟩
  | invalid dir file msg hm =>
    exact ⟨1, fun fromF => by simp only [readConfigFile, hm]; rfl⟩
  | noext dir file cfg hv hr =>
    refine ⟨1, fun fromF => ?_⟩
    rcases hr with hr | hr
    · simp only [readConfigFile, hv, hr]; rfl
    · simp only [readConfigFile, hv, hr, if_true]
      rfl
  | ext dir file cfg r hv he hne hterm ih =>
    obtain ⟨n, hn⟩ := ih
    refine ⟨n + 1, fun fromF => ?_⟩
    have hrec := hn (some (pathJoin [dir, file]))
    simp only [readConfigFile, hv, he, hne, if_false]
    cases hx : readConfigFile fs n (extTarget dir r).1 (extTarget dir r).2
        (some (pathJoin [dir, file])) with
    | none =>
      rw [hx] at hrec
      exact absurd hrec (by simp)
    | some p =>
      obtain ⟨logs, res⟩ := p
      cases res with
      | error msg => simp [hx]
      | ok ext => simp [hx]

/-- Witness for the amended claim C9 on the concrete two-file chain, whose
extends chain is finite. -/
theorem c9_witness :
    ∃ fuel : Nat, ∀ fromF : Option String,
      (readConfigFile chainFS fuel "/cwd" "tsconfig.json" fromF).isSome = true :=
  c9_amended_terminates chainFS "/cwd" "tsconfig.json"
    (ChainTerm.ext "/cwd" "tsconfig.json"
      ⟨none, [("k", ["a"]), ("onlyA", ["x"])], some "./base.json"⟩ "./base.json"
      (by rfl) (by rfl) (by decide)
      (ChainTerm.noext (extTarget "/cwd" "./base.json").1 (extTarget "/cwd" "./base.json").2
        ⟨some "./base", [("k", ["b"]), ("onlyB", ["y"])], none⟩ (by rfl) (Or.inl rfl)))

end TsConfig

